import Mathlib

/-!
Verification of the PyFolding Ising-model module (`pyfolding/ising.py`).

The Python source is shallowly embedded: numpy floats become real numbers,
the 2x2 transfer matrices become pairs of pairs of reals, Python lists become
Lean lists, in-place mutation of shared domain instances becomes explicit
state passing over an arena of domain instances indexed by position, and
Python exceptions become `Except String` results.
-/

namespace PyFolding

/-- Modelled from the spec: the external physical constant `RT` (the
`constants` module is not part of the sources; the spec only says `RT` is
"an external physical constant").  We use the ideal gas constant in
kcal/(mol K) times 298.15 K, the standard value for protein-folding work;
the proofs below only use that `0 < RT < 2`. -/
noncomputable def RT : ℝ := 1.987204118 * 298.15 / 1000

theorem RT_pos : 0 < RT := by norm_num [RT]

theorem RT_lt_two : RT < 2 := by norm_num [RT]

/-- `PARAMETER_LABELS = ('DG_i', 'DG_ij', 'm_i', 'm_ij')`. -/
def PARAMETER_LABELS : List String := ["DG_i", "DG_ij", "m_i", "m_ij"]

/-- `ACCEPTABLE_BOUNDS = ((-2., 15.), (-15., 2.), (-3., -.01), (-3., -.01))`. -/
noncomputable def ACCEPTABLE_BOUNDS : List (ℝ × ℝ) :=
  [(-2, 15), (-15, 2), (-3, -0.01), (-3, -0.01)]

/-- `free_energy_m(x, DeltaG, m_value) = np.exp(-(DeltaG - m_value*x) / constants.RT)`. -/
noncomputable def free_energy_m (x DeltaG m_value : ℝ) : ℝ :=
  Real.exp (-(DeltaG - m_value * x) / RT)

/-- `free_energy(x, DeltaG, m_value) = np.exp(-DeltaG / constants.RT)`
(both `x` and `m_value` are ignored by the body). -/
noncomputable def free_energy (x DeltaG m_value : ℝ) : ℝ :=
  Real.exp (-DeltaG / RT)

/-- One `IsingDomain` instance.  All predefined domain variants use the
default `k_func = free_energy_m` and `t_func = free_energy`; the only
behavioural difference between variants is the overridden `q_func` of the
cap variants (recorded in `isCap`) together with their `used_variables`. -/
structure IsingDomain where
  name : String
  DG_i : ℝ
  DG_ij : ℝ
  m_i : ℝ
  m_ij : ℝ
  used_variables : List ℕ
  bounds_table : List (ℝ × ℝ)
  isCap : Bool

/-- `kappa(x) = self.__kappa(x, self.DG_i, self.m_i)` with `__kappa = free_energy_m`. -/
noncomputable def IsingDomain.kappa (d : IsingDomain) (x : ℝ) : ℝ :=
  free_energy_m x d.DG_i d.m_i

/-- `tau(x) = self.__tau(x, self.DG_ij, self.m_ij)` with `__tau = free_energy`. -/
noncomputable def IsingDomain.tau (d : IsingDomain) (x : ℝ) : ℝ :=
  free_energy x d.DG_ij d.m_ij

/-- The domain's 2x2 transfer matrix `q_i(x, folded)` as `((row0), (row1))`:
chain variants use `[[kappa*tau, folded], [kappa, folded]]`, the cap variants
override `q_func` to `[[kappa, folded], [kappa, folded]]`. -/
noncomputable def IsingDomain.q_i (d : IsingDomain) (x folded : ℝ) : (ℝ × ℝ) × (ℝ × ℝ) :=
  if d.isCap then ((d.kappa x, folded), (d.kappa x, folded))
  else ((d.kappa x * d.tau x, folded), (d.kappa x, folded))

/-- `bounds` property: `tuple([self.__bounds[i] for i in self.used_variables])`. -/
noncomputable def IsingDomain.bounds (d : IsingDomain) : List (ℝ × ℝ) :=
  d.used_variables.map (fun i => d.bounds_table.getD i (0, 0))

/-- `labels` property: `[PARAMETER_LABELS[i] for i in self.used_variables]`. -/
def IsingDomain.labels (d : IsingDomain) : List String :=
  d.used_variables.map (fun i => PARAMETER_LABELS.getD i "")

/-- Row vector times 2x2 matrix: `v * M` for a row vector `v = (v1, v2)`. -/
def rowMul (v : ℝ × ℝ) (M : (ℝ × ℝ) × (ℝ × ℝ)) : ℝ × ℝ :=
  (v.1 * M.1.1 + v.2 * M.2.1, v.1 * M.1.2 + v.2 * M.2.2)

/-- The loop body of `IsingPartitionFunction.partition`: starting from the
row vector `v`, multiply through the chain, domain `i` receiving the folded
indicator `folded i`. -/
noncomputable def partitionFold (x : ℝ) (topology : List IsingDomain)
    (folded : ℕ → ℝ) (v : ℝ × ℝ) : ℝ × ℝ :=
  match topology with
  | [] => v
  | d :: rest => partitionFold x rest (fun i => folded (i + 1)) (rowMul v (d.q_i x (folded 0)))

/-- `partition(x, folded)`: `q_i = [0,1]`, multiplied by each domain's
`q_i(x, folded[i])` in chain order, then by the column `[1,1]^T`.  The
default argument models `folded = np.array([])`, replaced by all ones. -/
noncomputable def partition (topology : List IsingDomain) (x : ℝ)
    (folded : ℕ → ℝ) : ℝ :=
  (partitionFold x topology folded (0, 1)).1 + (partitionFold x topology folded (0, 1)).2

/-- `subpartition(x, i, rev)`: partition with `folded = ones` except
`folded[i] = 0`, complemented when `rev`. -/
noncomputable def subpartition (topology : List IsingDomain) (x : ℝ) (i : ℕ)
    (rev : Bool) : ℝ :=
  partition topology x (fun j =>
    if rev then 1 - (if j = i then 0 else 1) else (if j = i then 0 else 1))

/-- `theta(x) = 1 - (sum_i subpartition(x, i)) / (n * partition(x))`. -/
noncomputable def theta (topology : List IsingDomain) (x : ℝ) : ℝ :=
  let q_n := partition topology x (fun _ => 1)
  let sum_q_i :=
    ((List.range topology.length).map (fun i => subpartition topology x i false)).sum
  1 - sum_q_i / (topology.length * q_n)

/-- The predefined domain variants (`HelixDomain`, `RepeatDomain`, ...):
in `GlobalFitWrapper.append` a topology is a list of these class objects. -/
inductive DomainTag
  | Helix
  | Repeat
  | MutantRepeat
  | Loop
  | MutantLoop
  | Cap
  | MutantCap
deriving DecidableEq

/-- The `name` attribute each variant's `__init__` assigns. -/
def DomainTag.pyName : DomainTag → String
  | .Helix => "Helix"
  | .Repeat => "Repeat"
  | .MutantRepeat => "MutantRepeat"
  | .Loop => "Loop"
  | .MutantLoop => "MutantLoop"
  | .Cap => "Cap"
  | .MutantCap => "MutantCap"

/-- Whether the variant overrides `q_func` with the cap matrix. -/
def DomainTag.capLike : DomainTag → Bool
  | .Cap => true
  | .MutantCap => true
  | _ => false

/-- Instantiating a domain variant (`domain()` in `GlobalFitWrapper.append`):
`IsingDomain.__init__` sets `DG_i = 2.`, `DG_ij = -4.`, `m_i = -.5`,
`m_ij = -.5`, `used_variables = (0, 1, 2)` and `bounds = ACCEPTABLE_BOUNDS`;
the cap variants override `used_variables = (0, 2)` and `q_func`. -/
noncomputable def mkDomain (t : DomainTag) : IsingDomain :=
  { name := t.pyName
    DG_i := 2
    DG_ij := -4
    m_i := -0.5
    m_ij := -0.5
    used_variables := if t.capLike then [0, 2] else [0, 1, 2]
    bounds_table := ACCEPTABLE_BOUNDS
    isCap := t.capLike }

/-! ### Basic lemmas about the single-domain partition function -/

theorem kappa_pos (d : IsingDomain) (x : ℝ) : 0 < d.kappa x :=
  Real.exp_pos _

theorem tau_pos (d : IsingDomain) (x : ℝ) : 0 < d.tau x :=
  Real.exp_pos _

/-- For any single-domain topology (chain or cap variant alike),
the default partition function is `kappa x + 1`. -/
theorem partition_single (d : IsingDomain) (x : ℝ) :
    partition [d] x (fun _ => 1) = d.kappa x + 1 := by
  by_cases h : d.isCap = true <;>
    simp [partition, partitionFold, rowMul, IsingDomain.q_i, h]

/-- For any single-domain topology, `subpartition x 0 = kappa x`. -/
theorem subpartition_single (d : IsingDomain) (x : ℝ) :
    subpartition [d] x 0 false = d.kappa x := by
  by_cases h : d.isCap = true <;>
    simp [subpartition, partition, partitionFold, rowMul, IsingDomain.q_i, h]

/-- For any single-domain topology, `theta x = 1 / (1 + kappa x)`. -/
theorem theta_single (d : IsingDomain) (x : ℝ) :
    theta [d] x = 1 / (1 + d.kappa x) := by
  have hk : 0 < d.kappa x := kappa_pos d x
  have h1 : (0 : ℝ) < 1 + d.kappa x := by linarith
  have hr : List.range 1 = [0] := rfl
  rw [theta]
  simp only [List.length_singleton, hr, List.map_cons, List.map_nil,
    List.sum_cons, List.sum_nil, partition_single, subpartition_single, Nat.cast_one, one_mul]
  field_simp
  ring

theorem kappa_repeat_zero :
    (mkDomain DomainTag.Repeat).kappa 0 = Real.exp (-(2 : ℝ) / RT) := by
  norm_num [IsingDomain.kappa, free_energy_m, mkDomain]

/-- `exp (-2 / RT)` is well below `1/2` for the physical constant `RT`. -/
theorem exp_neg_two_div_RT_lt_half : Real.exp (-(2 : ℝ) / RT) < 1 / 2 := by
  have h1 : -(2 : ℝ) / RT ≤ -1 := by
    rw [div_le_iff RT_pos]
    nlinarith [RT_pos, RT_lt_two]
  have h2 : Real.exp (-(2 : ℝ) / RT) ≤ Real.exp (-1) := Real.exp_le_exp.mpr h1
  have h3 : (2 : ℝ) < Real.exp 1 := by
    have := Real.exp_one_gt_d9
    linarith
  have h4 : Real.exp (-1 : ℝ) = (Real.exp 1)⁻¹ := Real.exp_neg 1
  have h5 : (Real.exp 1)⁻¹ < 1 / 2 := by
    have hpos := Real.exp_pos 1
    have hcancel : Real.exp 1 * (Real.exp 1)⁻¹ = 1 := mul_inv_cancel₀ (ne_of_gt hpos)
    nlinarith [inv_pos.mpr hpos]
  linarith

/-- C1, counterexample: for the single-`Repeat` topology with its default
parameters `DG_i = 2.0`, `m_i = -0.5`, the code's `theta(0)` differs from the
claimed value `exp(-2.0/RT) / (1 + exp(-2.0/RT))` by far more than `1e-9`
(the code computes `1 / (1 + exp(-2.0/RT))` instead). -/
theorem claim_C1_counterexample :
    1e-9 < |theta [mkDomain DomainTag.Repeat] 0 -
      Real.exp (-(2 : ℝ) / RT) / (1 + Real.exp (-(2 : ℝ) / RT))| := by
  have he : (0 : ℝ) < Real.exp (-(2 : ℝ) / RT) := Real.exp_pos _
  have hlt := exp_neg_two_div_RT_lt_half
  set e := Real.exp (-(2 : ℝ) / RT) with hedef
  have h1e : (0 : ℝ) < 1 + e := by linarith
  have hval : theta [mkDomain DomainTag.Repeat] 0 = 1 / (1 + e) := by
    rw [theta_single, kappa_repeat_zero]
  rw [hval]
  have hdiff : 1 / (1 + e) - e / (1 + e) = (1 - e) / (1 + e) := by
    field_simp
  rw [hdiff, abs_of_pos (div_pos (by linarith) h1e)]
  rw [lt_div_iff h1e]
  nlinarith

/-- C1, amended: for every single-domain topology `[d]` and every real `x`,
`partition(x)` with the default all-folded indicator equals `1 + kappa(x)`,
but `theta(x)` equals `1 / (1 + kappa(x))` (that is,
`1 - kappa(x)/(1 + kappa(x))`, not `kappa(x)/(1 + kappa(x))`); in
particular for the default `Repeat` domain (`DG_i = 2.0`, `m_i = -0.5`) at
`x = 0`, `theta(0) = 1 / (1 + exp(-2.0/RT))`. -/
theorem claim_C1_amended (d : IsingDomain) (x : ℝ) :
    partition [d] x (fun _ => 1) = 1 + d.kappa x ∧
    theta [d] x = 1 / (1 + d.kappa x) ∧
    theta [mkDomain DomainTag.Repeat] 0 = 1 / (1 + Real.exp (-(2 : ℝ) / RT)) := by
  refine ⟨by rw [partition_single]; ring, theta_single d x, ?_⟩
  rw [theta_single, kappa_repeat_zero]

/-! ### C5: monotonicity of `kappa` and `theta` in the denaturant -/

/-- For `m_i < 0`, `kappa` is antitone in `x` (the exponent is
`(m_i * x - DG_i) / RT`, decreasing in `x`). -/
theorem kappa_antitone (d : IsingDomain) {x1 x2 : ℝ} (hm : d.m_i < 0)
    (hx : x1 ≤ x2) : d.kappa x2 ≤ d.kappa x1 := by
  unfold IsingDomain.kappa free_energy_m
  apply Real.exp_le_exp.mpr
  rw [div_le_div_iff_of_pos_right RT_pos]
  have : d.m_i * x2 ≤ d.m_i * x1 := mul_le_mul_of_nonpos_left hx (le_of_lt hm)
  linarith

/-- C5, counterexample: for the default `Repeat` domain (`m_i = -0.5 < 0`)
and `x1 = 0 ≤ 1 = x2`, the code has `kappa(0) > kappa(1)`: `kappa` is *not*
non-decreasing in `x` for `m_i < 0`. -/
theorem claim_C5_counterexample :
    ¬ ((mkDomain DomainTag.Repeat).kappa 0 ≤ (mkDomain DomainTag.Repeat).kappa 1) := by
  rw [not_le, kappa_repeat_zero]
  have h1 : (mkDomain DomainTag.Repeat).kappa 1 = Real.exp (-(2.5 : ℝ) / RT) := by
    norm_num [IsingDomain.kappa, free_energy_m, mkDomain]
  rw [h1]
  apply Real.exp_lt_exp.mpr
  rw [div_lt_div_iff_of_pos_right RT_pos]
  norm_num

/-- C5, amended: for every domain with `m_i < 0` and all `x1 ≤ x2`,
`kappa(x2) ≤ kappa(x1)` (`kappa` is non-*increasing* in `x`), and for a
single-domain two-state topology `theta(x1) ≤ theta(x2)` (`theta` is
non-decreasing in `x`, as claimed). -/
theorem claim_C5_amended (d : IsingDomain) (x1 x2 : ℝ) (hm : d.m_i < 0)
    (hx : x1 ≤ x2) :
    d.kappa x2 ≤ d.kappa x1 ∧ theta [d] x1 ≤ theta [d] x2 := by
  have hk := kappa_antitone d hm hx
  refine ⟨hk, ?_⟩
  rw [theta_single, theta_single]
  have h2 : (0 : ℝ) < 1 + d.kappa x2 := by
    have := kappa_pos d x2
    linarith
  apply one_div_le_one_div_of_le h2
  linarith

/-- Witness for C5's amended claim at the default `Repeat` domain,
`x1 = 0`, `x2 = 1`. -/
theorem claim_C5_amended_witness :
    (mkDomain DomainTag.Repeat).kappa 1 ≤ (mkDomain DomainTag.Repeat).kappa 0 ∧
    theta [mkDomain DomainTag.Repeat] 0 ≤ theta [mkDomain DomainTag.Repeat] 1 :=
  claim_C5_amended (mkDomain DomainTag.Repeat) 0 1 (by norm_num [mkDomain]) (by norm_num)

/-! ### C4: `0 ≤ theta ≤ 1` for every non-empty topology -/

/-- Transfer through one matrix with weight column entries `a, b ≥ 0` and
folded column `f ≤ g`, `0 ≤ f`, preserves componentwise nonnegativity and
domination of row vectors. -/
theorem rowMul_bounds {v w : ℝ × ℝ} {a b f g : ℝ}
    (ha : 0 ≤ a) (hb : 0 ≤ b) (hf : 0 ≤ f) (hfg : f ≤ g)
    (hv1 : 0 ≤ v.1) (hv2 : 0 ≤ v.2) (h1 : v.1 ≤ w.1) (h2 : v.2 ≤ w.2) :
    0 ≤ (rowMul v ((a, f), (b, f))).1 ∧ 0 ≤ (rowMul v ((a, f), (b, f))).2 ∧
    (rowMul v ((a, f), (b, f))).1 ≤ (rowMul w ((a, g), (b, g))).1 ∧
    (rowMul v ((a, f), (b, f))).2 ≤ (rowMul w ((a, g), (b, g))).2 := by
  refine ⟨?_, ?_, ?_, ?_⟩ <;> simp only [rowMul] <;> nlinarith

/-- The partition fold is componentwise nonnegative and monotone in both the
folded indicators and the starting vector. -/
theorem partitionFold_nonneg_mono (x : ℝ) :
    ∀ (topo : List IsingDomain) (f g : ℕ → ℝ) (v w : ℝ × ℝ),
      (∀ i, 0 ≤ f i) → (∀ i, f i ≤ g i) →
      0 ≤ v.1 → 0 ≤ v.2 → v.1 ≤ w.1 → v.2 ≤ w.2 →
      0 ≤ (partitionFold x topo f v).1 ∧ 0 ≤ (partitionFold x topo f v).2 ∧
      (partitionFold x topo f v).1 ≤ (partitionFold x topo g w).1 ∧
      (partitionFold x topo f v).2 ≤ (partitionFold x topo g w).2 := by
  intro topo
  induction topo with
  | nil => intro f g v w _ _ hv1 hv2 h1 h2; exact ⟨hv1, hv2, h1, h2⟩
  | cons d rest ih =>
    intro f g v w hf hfg hv1 hv2 h1 h2
    simp only [partitionFold]
    have hk := le_of_lt (kappa_pos d x)
    have hkt : 0 ≤ d.kappa x * d.tau x :=
      le_of_lt (mul_pos (kappa_pos d x) (tau_pos d x))
    have hstep :
        0 ≤ (rowMul v (d.q_i x (f 0))).1 ∧ 0 ≤ (rowMul v (d.q_i x (f 0))).2 ∧
        (rowMul v (d.q_i x (f 0))).1 ≤ (rowMul w (d.q_i x (g 0))).1 ∧
        (rowMul v (d.q_i x (f 0))).2 ≤ (rowMul w (d.q_i x (g 0))).2 := by
      by_cases hc : d.isCap = true <;>
        simp only [IsingDomain.q_i, hc, if_true, if_false, Bool.false_eq_true] <;>
        exact rowMul_bounds (by assumption) hk (hf 0) (hfg 0) hv1 hv2 h1 h2
    exact ih _ _ _ _ (fun i => hf (i + 1)) (fun i => hfg (i + 1))
      hstep.1 hstep.2.1 hstep.2.2.1 hstep.2.2.2

/-- With all folded indicators at least `1`, the sum of the two components
of the fold never decreases along the chain. -/
theorem partitionFold_sum_ge (x : ℝ) :
    ∀ (topo : List IsingDomain) (f : ℕ → ℝ) (v : ℝ × ℝ),
      (∀ i, 1 ≤ f i) → 0 ≤ v.1 → 0 ≤ v.2 →
      v.1 + v.2 ≤ (partitionFold x topo f v).1 + (partitionFold x topo f v).2 := by
  intro topo
  induction topo with
  | nil => intro f v _ _ _; simp [partitionFold]
  | cons d rest ih =>
    intro f v hf hv1 hv2
    simp only [partitionFold]
    have hf0 : (0 : ℝ) ≤ f 0 := le_trans zero_le_one (hf 0)
    have hk := le_of_lt (kappa_pos d x)
    have hkt : 0 ≤ d.kappa x * d.tau x :=
      le_of_lt (mul_pos (kappa_pos d x) (tau_pos d x))
    have hsum : v.1 + v.2 ≤ (rowMul v (d.q_i x (f 0))).1 + (rowMul v (d.q_i x (f 0))).2 := by
      by_cases hc : d.isCap = true <;>
        simp only [IsingDomain.q_i, hc, if_true, if_false, Bool.false_eq_true, rowMul] <;>
        nlinarith [hf 0]
    have hnn :
        0 ≤ (rowMul v (d.q_i x (f 0))).1 ∧ 0 ≤ (rowMul v (d.q_i x (f 0))).2 := by
      by_cases hc : d.isCap = true <;>
        simp only [IsingDomain.q_i, hc, if_true, if_false, Bool.false_eq_true, rowMul] <;>
        constructor <;> nlinarith [hf 0]
    calc v.1 + v.2 ≤ (rowMul v (d.q_i x (f 0))).1 + (rowMul v (d.q_i x (f 0))).2 := hsum
      _ ≤ _ := ih _ _ (fun i => hf (i + 1)) hnn.1 hnn.2

/-- The default (all-folded) partition function is at least `1`. -/
theorem partition_ge_one (topo : List IsingDomain) (x : ℝ) :
    1 ≤ partition topo x (fun _ => 1) := by
  have := partitionFold_sum_ge x topo (fun _ => 1) (0, 1)
    (fun _ => le_refl 1) (le_refl 0) zero_le_one
  simpa [partition] using this

/-- Each subpartition is nonnegative and bounded by the full partition. -/
theorem subpartition_le_partition (topo : List IsingDomain) (x : ℝ) (i : ℕ) :
    0 ≤ subpartition topo x i false ∧ subpartition topo x i false ≤ partition topo x (fun _ => 1) := by
  have h := partitionFold_nonneg_mono x topo
    (fun j => if (false : Bool) then 1 - (if j = i then 0 else 1) else (if j = i then 0 else 1))
    (fun _ => 1) (0, 1) (0, 1)
    (fun j => by by_cases hj : j = i <;> simp [hj])
    (fun j => by by_cases hj : j = i <;> simp [hj])
    (le_refl 0) zero_le_one (le_refl 0) (le_refl 1)
  constructor
  · have := add_nonneg h.1 h.2.1
    simpa [subpartition, partition] using this
  · have := add_le_add h.2.2.1 h.2.2.2
    simpa [subpartition, partition] using this

theorem list_map_sum_le (l : List ℕ) (fn : ℕ → ℝ) (Q : ℝ)
    (h : ∀ i, fn i ≤ Q) : (l.map fn).sum ≤ l.length * Q := by
  induction l with
  | nil => simp
  | cons a t ih =>
    simp only [List.map_cons, List.sum_cons, List.length_cons]
    push_cast
    linarith [h a, ih]

/-- C4: for every non-empty topology of Ising domains (any real parameter
values, in particular any values within the fit bounds) and every real
denaturant concentration `x`, `theta(x)` lies in `[0, 1]`. -/
theorem claim_C4 (topo : List IsingDomain) (x : ℝ) (h : topo ≠ []) :
    0 ≤ theta topo x ∧ theta topo x ≤ 1 := by
  have hn : 0 < topo.length := List.length_pos.mpr h
  have hQ : 1 ≤ partition topo x (fun _ => 1) := partition_ge_one topo x
  have hnQ : (0 : ℝ) < (topo.length : ℝ) * partition topo x (fun _ => 1) := by
    have : (0 : ℝ) < (topo.length : ℝ) := by exact_mod_cast hn
    nlinarith
  have hS0 : 0 ≤ ((List.range topo.length).map (fun i => subpartition topo x i false)).sum := by
    apply List.sum_nonneg
    intro a ha
    rcases List.mem_map.mp ha with ⟨i, _, rfl⟩
    exact (subpartition_le_partition topo x i).1
  have hSle : ((List.range topo.length).map (fun i => subpartition topo x i false)).sum ≤
      (topo.length : ℝ) * partition topo x (fun _ => 1) := by
    have := list_map_sum_le (List.range topo.length)
      (fun i => subpartition topo x i false) (partition topo x (fun _ => 1))
      (fun i => (subpartition_le_partition topo x i).2)
    simpa [List.length_range] using this
  unfold theta
  constructor
  · have hdiv : ((List.range topo.length).map (fun i => subpartition topo x i false)).sum /
        ((topo.length : ℝ) * partition topo x (fun _ => 1)) ≤ 1 :=
      (div_le_one hnQ).mpr hSle
    simpa using by linarith
  · have hdiv : 0 ≤ ((List.range topo.length).map (fun i => subpartition topo x i false)).sum /
        ((topo.length : ℝ) * partition topo x (fun _ => 1)) :=
      div_nonneg hS0 (le_of_lt hnQ)
    simpa using by linarith

/-- Witness for C4 at the single default `Repeat` domain and `x = 0`. -/
theorem claim_C4_witness :
    0 ≤ theta [mkDomain DomainTag.Repeat] 0 ∧ theta [mkDomain DomainTag.Repeat] 0 ≤ 1 :=
  claim_C4 [mkDomain DomainTag.Repeat] 0 (by simp)

/-! ### C8: the weight formulas, and `m_ij` never matters -/

/-- Overwrite the `m_ij` parameter slot of a domain. -/
def set_m_ij (d : IsingDomain) (v : ℝ) : IsingDomain := { d with m_ij := v }

theorem partitionFold_set_m_ij (x v : ℝ) :
    ∀ (topo : List IsingDomain) (f : ℕ → ℝ) (w : ℝ × ℝ),
      partitionFold x (topo.map (fun e => set_m_ij e v)) f w = partitionFold x topo f w := by
  intro topo
  induction topo with
  | nil => intro f w; rfl
  | cons d rest ih =>
    intro f w
    simp only [List.map_cons, partitionFold]
    rw [ih]
    rfl

theorem partition_set_m_ij (topo : List IsingDomain) (x v : ℝ) (f : ℕ → ℝ) :
    partition (topo.map (fun e => set_m_ij e v)) x f = partition topo x f := by
  simp [partition, partitionFold_set_m_ij]

theorem theta_set_m_ij (topo : List IsingDomain) (x v : ℝ) :
    theta (topo.map (fun e => set_m_ij e v)) x = theta topo x := by
  unfold theta subpartition
  simp [partition_set_m_ij, List.length_map]

/-- C8: for every domain variant and all real `x`,
`kappa(x) = exp(-(DG_i - m_i*x)/RT)` and `tau(x) = exp(-DG_ij/RT)`; the
`m_ij` parameter slot influences neither `kappa`, `tau`, `q_i`, `partition`
nor `theta`: overwriting it with any value `v` leaves them all unchanged. -/
theorem claim_C8 (d : IsingDomain) (x fv v : ℝ) (topo : List IsingDomain) :
    d.kappa x = Real.exp (-(d.DG_i - d.m_i * x) / RT) ∧
    d.tau x = Real.exp (-d.DG_ij / RT) ∧
    (set_m_ij d v).kappa x = d.kappa x ∧
    (set_m_ij d v).tau x = d.tau x ∧
    (set_m_ij d v).q_i x fv = d.q_i x fv ∧
    (∀ f : ℕ → ℝ, partition (topo.map (fun e => set_m_ij e v)) x f = partition topo x f) ∧
    theta (topo.map (fun e => set_m_ij e v)) x = theta topo x :=
  ⟨rfl, rfl, rfl, rfl, rfl, fun f => partition_set_m_ij topo x v f, theta_set_m_ij topo x v⟩

/-! ### The global fit session: `GlobalFitWrapper` -/

/-- An equilibrium denaturation curve (external collaborator): the parts of
the contract the fit uses are the denaturant concentrations `x` and the
observed signal `y`. -/
structure Curve where
  x : List ℝ
  y : List ℝ

/-- One entry of `GlobalFitWrapper.proteins`: the dict
`{'n': len(q_topology), 'curve': curve, 'partition': q}`.  The partition
function holds references to the shared domain instances; in this embedding
a reference is an index into the session's `domains` arena, so in-place
parameter mutation is modelled by updating the arena. -/
structure Protein where
  n : ℕ
  curve : Curve
  q_topology : List ℕ

/-- The state of a `GlobalFitWrapper` session. -/
structure GlobalFitWrapper where
  proteins : List Protein
  domains : List IsingDomain
  domain_types : List DomainTag

/-- `list.index(t)` on the `domain_types` list (callers guard membership). -/
def idxOf (t : DomainTag) : List DomainTag → ℕ
  | [] => 0
  | a :: rest => if a = t then 0 else idxOf t rest + 1

/-- The loop of `GlobalFitWrapper.append` over the requested topology:
a domain type not yet seen is instantiated and registered, a known type is
reused (`self.domains[self.domain_types.index(domain)]`); `q` accumulates
the topology of (references to) instances. -/
noncomputable def appendLoop : List DomainTag → List IsingDomain → List DomainTag → List ℕ →
    List IsingDomain × List DomainTag × List ℕ
  | [], ds, ts, q => (ds, ts, q)
  | t :: rest, ds, ts, q =>
    if t ∈ ts then appendLoop rest ds ts (q ++ [idxOf t ts])
    else appendLoop rest (ds ++ [mkDomain t]) (ts ++ [t]) (q ++ [ds.length])

/-- `GlobalFitWrapper.append(curve, topology)`. -/
noncomputable def GlobalFitWrapper.append (s : GlobalFitWrapper) (curve : Curve)
    (topology : List DomainTag) : GlobalFitWrapper :=
  let r := appendLoop topology s.domains s.domain_types []
  { proteins := s.proteins ++ [{ n := r.2.2.length, curve := curve, q_topology := r.2.2 }]
    domains := r.1
    domain_types := r.2.1 }

/-- A fresh `GlobalFitWrapper()`. -/
def initWrapper : GlobalFitWrapper := ⟨[], [], []⟩

/-- A session built by a sequence of `append` calls. -/
noncomputable def runAppends (calls : List (Curve × List DomainTag)) : GlobalFitWrapper :=
  calls.foldl (fun s c => s.append c.1 c.2) initWrapper

theorem runAppends_concat (calls : List (Curve × List DomainTag))
    (c : Curve × List DomainTag) :
    runAppends (calls ++ [c]) = (runAppends calls).append c.1 c.2 := by
  simp [runAppends, List.foldl_append]

/-! Lemmas about `appendLoop` and `idxOf`. -/

theorem idxOf_lt_length {t : DomainTag} : ∀ {ts : List DomainTag}, t ∈ ts →
    idxOf t ts < ts.length := by
  intro ts
  induction ts with
  | nil => intro h; cases h
  | cons a rest ih =>
    intro h
    by_cases ha : a = t
    · simp [idxOf, ha]
    · have : t ∈ rest := by
        rcases List.mem_cons.mp h with h' | h'
        · exact absurd h'.symm ha
        · exact h'
      simp only [idxOf, ha, if_false, List.length_cons]
      exact Nat.succ_lt_succ (ih this)

theorem idxOf_append_of_mem {t : DomainTag} :
    ∀ {ts : List DomainTag} (Δ : List DomainTag), t ∈ ts →
      idxOf t (ts ++ Δ) = idxOf t ts := by
  intro ts
  induction ts with
  | nil => intro Δ h; cases h
  | cons a rest ih =>
    intro Δ h
    by_cases ha : a = t
    · simp [idxOf, ha]
    · have : t ∈ rest := by
        rcases List.mem_cons.mp h with h' | h'
        · exact absurd h'.symm ha
        · exact h'
      simp only [List.cons_append, idxOf, ha, if_false, List.append_eq]
      rw [ih Δ this]

theorem idxOf_append_self {t : DomainTag} : ∀ {ts : List DomainTag}, t ∉ ts →
    idxOf t (ts ++ [t]) = ts.length := by
  intro ts
  induction ts with
  | nil => intro _; simp [idxOf]
  | cons a rest ih =>
    intro h
    have ha : a ≠ t := fun he => h (he ▸ List.mem_cons_self a rest)
    have hrest : t ∉ rest := fun hm => h (List.mem_cons_of_mem a hm)
    simp only [List.cons_append, idxOf, ha, if_false, List.length_cons, List.append_eq]
    rw [ih hrest]

theorem appendLoop_types_extend :
    ∀ (tags : List DomainTag) (ds : List IsingDomain) (ts : List DomainTag) (q : List ℕ),
      ts <+: (appendLoop tags ds ts q).2.1 := by
  intro tags
  induction tags with
  | nil => intro ds ts q; exact List.prefix_refl ts
  | cons t rest ih =>
    intro ds ts q
    by_cases h : t ∈ ts
    · simpa [appendLoop, h] using ih ds ts (q ++ [idxOf t ts])
    · have h2 := ih (ds ++ [mkDomain t]) (ts ++ [t]) (q ++ [ds.length])
      have h1 : ts <+: ts ++ [t] := List.prefix_append ts [t]
      simpa [appendLoop, h] using h1.trans h2

theorem appendLoop_aligned :
    ∀ (tags : List DomainTag) (ds : List IsingDomain) (ts : List DomainTag) (q : List ℕ),
      ds = ts.map mkDomain →
      (appendLoop tags ds ts q).1 = ((appendLoop tags ds ts q).2.1).map mkDomain := by
  intro tags
  induction tags with
  | nil => intro ds ts q h; simpa [appendLoop] using h
  | cons t rest ih =>
    intro ds ts q h
    by_cases hm : t ∈ ts
    · simpa [appendLoop, hm] using ih ds ts (q ++ [idxOf t ts]) h
    · have : ds ++ [mkDomain t] = (ts ++ [t]).map mkDomain := by
        simp [h, List.map_append]
      simpa [appendLoop, hm] using
        ih (ds ++ [mkDomain t]) (ts ++ [t]) (q ++ [ds.length]) this

theorem appendLoop_nodup :
    ∀ (tags : List DomainTag) (ds : List IsingDomain) (ts : List DomainTag) (q : List ℕ),
      ts.Nodup → (appendLoop tags ds ts q).2.1.Nodup := by
  intro tags
  induction tags with
  | nil => intro ds ts q h; simpa [appendLoop] using h
  | cons t rest ih =>
    intro ds ts q h
    by_cases hm : t ∈ ts
    · simpa [appendLoop, hm] using ih ds ts (q ++ [idxOf t ts]) h
    · have hnd : (ts ++ [t]).Nodup := by
        rw [List.nodup_append]
        exact ⟨h, List.nodup_singleton t, by
          intro a ha hb
          rcases List.mem_singleton.mp hb with rfl
          exact hm ha⟩
      simpa [appendLoop, hm] using
        ih (ds ++ [mkDomain t]) (ts ++ [t]) (q ++ [ds.length]) hnd

theorem appendLoop_mem_of_mem_types :
    ∀ (tags : List DomainTag) (ds : List IsingDomain) (ts : List DomainTag) (q : List ℕ)
      (t : DomainTag), t ∈ ts → t ∈ (appendLoop tags ds ts q).2.1 :=
  fun tags ds ts q t h => (appendLoop_types_extend tags ds ts q).subset h

theorem appendLoop_mem_of_mem_tags :
    ∀ (tags : List DomainTag) (ds : List IsingDomain) (ts : List DomainTag) (q : List ℕ)
      (t : DomainTag), t ∈ tags → t ∈ (appendLoop tags ds ts q).2.1 := by
  intro tags
  induction tags with
  | nil => intro ds ts q t h; cases h
  | cons t' rest ih =>
    intro ds ts q t h
    rcases List.mem_cons.mp h with rfl | h'
    · by_cases hm : t ∈ ts
      · simpa [appendLoop, hm] using
          appendLoop_mem_of_mem_types rest ds ts (q ++ [idxOf t ts]) t hm
      · have : t ∈ ts ++ [t] := List.mem_append_right ts (List.mem_singleton_self t)
        simpa [appendLoop, hm] using
          appendLoop_mem_of_mem_types rest (ds ++ [mkDomain t]) (ts ++ [t])
            (q ++ [ds.length]) t this
    · by_cases hm : t' ∈ ts
      · simpa [appendLoop, hm] using ih ds ts (q ++ [idxOf t' ts]) t h'
      · simpa [appendLoop, hm] using
          ih (ds ++ [mkDomain t']) (ts ++ [t']) (q ++ [ds.length]) t h'

/-- The topology of instance references produced by one `append` resolves
every requested tag by `idxOf` into the final `domain_types` registry. -/
theorem appendLoop_q :
    ∀ (tags : List DomainTag) (ds : List IsingDomain) (ts : List DomainTag) (q : List ℕ),
      ds.length = ts.length →
      (appendLoop tags ds ts q).2.2 =
        q ++ tags.map (fun t => idxOf t (appendLoop tags ds ts q).2.1) := by
  intro tags
  induction tags with
  | nil => intro ds ts q _; simp [appendLoop]
  | cons t rest ih =>
    intro ds ts q hlen
    by_cases hm : t ∈ ts
    · have hpre := appendLoop_types_extend rest ds ts (q ++ [idxOf t ts])
      rcases hpre with ⟨Δ, hΔ⟩
      have hidx : idxOf t (appendLoop rest ds ts (q ++ [idxOf t ts])).2.1 = idxOf t ts := by
        rw [← hΔ, idxOf_append_of_mem Δ hm]
      have := ih ds ts (q ++ [idxOf t ts]) hlen
      simp only [appendLoop, hm, if_true]
      rw [this]
      simp [hidx]
    · have hpre := appendLoop_types_extend rest (ds ++ [mkDomain t]) (ts ++ [t])
        (q ++ [ds.length])
      rcases hpre with ⟨Δ, hΔ⟩
      have hmem : t ∈ ts ++ [t] := List.mem_append_right ts (List.mem_singleton_self t)
      have hidx : idxOf t (appendLoop rest (ds ++ [mkDomain t]) (ts ++ [t])
          (q ++ [ds.length])).2.1 = ds.length := by
        rw [← hΔ, idxOf_append_of_mem Δ hmem, idxOf_append_self hm, hlen]
      have hlen' : (ds ++ [mkDomain t]).length = (ts ++ [t]).length := by
        simp [hlen]
      have := ih (ds ++ [mkDomain t]) (ts ++ [t]) (q ++ [ds.length]) hlen'
      simp only [appendLoop, hm, if_false]
      rw [this]
      simp [hidx]

/-- C2: in every session built by a sequence of `append` calls, the arena
of instances is exactly one instance per registered type (in first-seen
order, no duplicate types), and every occurrence of a tag in every appended
topology resolves to the index `idxOf tag domain_types` of that single
shared instance — occurrences of the same type in any topology of the
session are the very same `DomainModel` instance, so a shared parameter
assignment reaches every curve using that type. -/
theorem claim_C2 (calls : List (Curve × List DomainTag)) :
    (runAppends calls).domains = ((runAppends calls).domain_types).map mkDomain ∧
    (runAppends calls).domain_types.Nodup ∧
    (∀ t ∈ (runAppends calls).domain_types,
      idxOf t (runAppends calls).domain_types < (runAppends calls).domains.length) ∧
    ((runAppends calls).proteins.map (fun p => p.q_topology) =
      calls.map (fun cl => cl.2.map (fun t => idxOf t (runAppends calls).domain_types))) ∧
    (∀ cl ∈ calls, ∀ t ∈ cl.2, t ∈ (runAppends calls).domain_types) := by
  induction calls using List.reverseRecOn with
  | nil =>
    refine ⟨rfl, List.nodup_nil, ?_, rfl, ?_⟩
    · intro t h; cases h
    · intro cl h; cases h
  | append_singleton calls c ih =>
    obtain ⟨ihA, ihN, _, ihP, ihM⟩ := ih
    rw [runAppends_concat]
    set s := runAppends calls with hs
    have hlen : s.domains.length = s.domain_types.length := by
      rw [ihA, List.length_map]
    have hpre := appendLoop_types_extend c.2 s.domains s.domain_types []
    rcases hpre with ⟨Δ, hΔ⟩
    have hA' : (s.append c.1 c.2).domains =
        ((s.append c.1 c.2).domain_types).map mkDomain := by
      simp only [GlobalFitWrapper.append]
      exact appendLoop_aligned c.2 s.domains s.domain_types [] ihA
    have hN' : (s.append c.1 c.2).domain_types.Nodup := by
      simp only [GlobalFitWrapper.append]
      exact appendLoop_nodup c.2 s.domains s.domain_types [] ihN
    have hlen' : (s.append c.1 c.2).domains.length =
        (s.append c.1 c.2).domain_types.length := by
      rw [hA', List.length_map]
    refine ⟨hA', hN', ?_, ?_, ?_⟩
    · intro t ht
      rw [hlen']
      exact idxOf_lt_length ht
    · have hq := appendLoop_q c.2 s.domains s.domain_types [] hlen
      simp only [GlobalFitWrapper.append, List.map_append, List.map_cons, List.map_nil]
      rw [hq]
      simp only [List.nil_append]
      congr 1
      rw [ihP]
      apply List.map_congr_left
      intro cl hcl
      apply List.map_congr_left
      intro t ht
      have htmem : t ∈ s.domain_types := ihM cl hcl t ht
      rw [← hΔ, idxOf_append_of_mem Δ htmem]
    · intro cl hcl t ht
      rcases List.mem_append.mp hcl with hcl' | hcl'
      · have htmem : t ∈ s.domain_types := ihM cl hcl' t ht
        simp only [GlobalFitWrapper.append]
        exact appendLoop_mem_of_mem_types c.2 s.domains s.domain_types [] t htmem
      · have hceq : cl = c := List.mem_singleton.mp hcl'
        simp only [GlobalFitWrapper.append]
        exact appendLoop_mem_of_mem_tags c.2 s.domains s.domain_types [] t (hceq ▸ ht)

/-- In an append-only session the arena holds exactly the registered types'
fresh instances (shared helper; also part of C2's statement). -/
theorem runAppends_aligned (calls : List (Curve × List DomainTag)) :
    (runAppends calls).domains = ((runAppends calls).domain_types).map mkDomain := by
  induction calls using List.reverseRecOn with
  | nil => rfl
  | append_singleton calls c ih =>
    rw [runAppends_concat]
    simp only [GlobalFitWrapper.append]
    exact appendLoop_aligned c.2 _ _ [] ih

noncomputable instance : Inhabited IsingDomain := ⟨mkDomain DomainTag.Helix⟩

/-! ### Parameter assignment (`__call__`'s setattr loop) and the objective -/

/-- `setattr(domain, label, value)` where `label = PARAMETER_LABELS[slot]`. -/
def setVar (d : IsingDomain) (slot : ℕ) (v : ℝ) : IsingDomain :=
  match slot with
  | 0 => { d with DG_i := v }
  | 1 => { d with DG_ij := v }
  | 2 => { d with m_i := v }
  | 3 => { d with m_ij := v }
  | _ => d

/-- `getattr(domain, PARAMETER_LABELS[slot])`. -/
def getVar (d : IsingDomain) (slot : ℕ) : ℝ :=
  match slot with
  | 0 => d.DG_i
  | 1 => d.DG_ij
  | 2 => d.m_i
  | 3 => d.m_ij
  | _ => 0

/-- Write consecutive iterator values into the given slots (total version;
exhaustion handling lives in `setDomainParams`). -/
def writeSlots (d : IsingDomain) : List ℕ → List ℝ → IsingDomain
  | [], _ => d
  | _ :: _, [] => d
  | slot :: rest, v :: vrest => writeSlots (setVar d slot v) rest vrest

/-- `for p in domain.labels: setattr(domain, p, p_val.next())`: consume one
iterator value per used variable; an exhausted iterator raises
`StopIteration`. -/
def setDomainParams (d : IsingDomain) : List ℕ → List ℝ → Except String (IsingDomain × List ℝ)
  | [], vals => .ok (d, vals)
  | _ :: _, [] => .error "StopIteration"
  | slot :: rest, v :: vrest => setDomainParams (setVar d slot v) rest vrest

/-- The parameter-assignment loop of `__call__` over all registered domains,
in creation order. -/
def setAllParams : List IsingDomain → List ℝ → Except String (List IsingDomain × List ℝ)
  | [], vals => .ok ([], vals)
  | d :: ds, vals =>
    match setDomainParams d d.used_variables vals with
    | .error e => .error e
    | .ok (d', rest) =>
      match setAllParams ds rest with
      | .error e => .error e
      | .ok (ds', rest') => .ok (d' :: ds', rest')

/-- Total counterpart of `setAllParams` (equal to it on long-enough input). -/
def writeAll : List IsingDomain → List ℝ → List IsingDomain
  | [], _ => []
  | d :: rest, vals =>
    writeSlots d d.used_variables vals :: writeAll rest (vals.drop d.used_variables.length)

/-- The expected flat parameter-vector length: sum of `|used_variables|`
over the distinct domains in creation order. -/
def totalParams (ds : List IsingDomain) : ℕ :=
  (ds.map (fun d => d.used_variables.length)).sum

/-- Turn a stored topology of instance references back into the list of
(current) instances it points at. -/
noncomputable def resolveTopology (domains : List IsingDomain) (idxs : List ℕ) :
    List IsingDomain :=
  idxs.map (fun i => domains.getD i default)

/-- One protein's contribution `np.sum(np.abs(fit - y)**2)` with
`fit = partition.theta(curve.x)` evaluated pointwise. -/
noncomputable def proteinResidual (domains : List IsingDomain) (p : Protein) : ℝ :=
  ((p.curve.x.zip p.curve.y).map
    (fun xy => |theta (resolveTopology domains p.q_topology) xy.1 - xy.2| ^ 2)).sum

/-- `GlobalFitWrapper.__call__(x)`: guard on an empty session, assign the
flat vector into the shared domains, then total the per-curve squared
residuals. -/
noncomputable def GlobalFitWrapper.call (s : GlobalFitWrapper) (x : List ℝ) :
    Except String ℝ :=
  if s.proteins.length < 1 then
    .error "GlobalFitIsing must have at least one curve to fit."
  else
    match setAllParams s.domains x with
    | .error e => .error e
    | .ok (ds, _) => .ok ((s.proteins.map (proteinResidual ds)).sum)

/-- The `bounds` property: concatenation of each registered domain's
restricted bounds, in creation order. -/
noncomputable def GlobalFitWrapper.bounds (s : GlobalFitWrapper) : List (ℝ × ℝ) :=
  s.domains.flatMap IsingDomain.bounds

/-- The `domain_params` property: `"<name> <label>"` per used variable of
each registered domain, in the same order. -/
def GlobalFitWrapper.domain_params (s : GlobalFitWrapper) : List String :=
  s.domains.flatMap (fun d => d.labels.map (fun l => d.name ++ " " ++ l))

/-- The (domain index, variable slot) pair each flat-vector position refers
to, in assignment order. -/
def slotIdx : List IsingDomain → List (ℕ × ℕ)
  | [] => []
  | d :: rest =>
    d.used_variables.map (fun v => ((0 : ℕ), v)) ++
      (slotIdx rest).map (fun iv => (iv.1 + 1, iv.2))

/-- Read back the slots named by `L` from an arena `ds`. -/
noncomputable def readFlat (ds : List IsingDomain) (L : List (ℕ × ℕ)) : List ℝ :=
  L.map (fun iv => getVar (ds.getD iv.1 default) iv.2)

/-! ### C9: evaluating an empty session fails immediately -/

/-- C9: calling the objective on a session with zero appended curves fails
with the `InvalidState` error, whatever the parameter vector; in this pure
model the error is produced by the guard alone, before the embedding of the
parameter assignment or of any residual is consulted. -/
theorem claim_C9 (s : GlobalFitWrapper) (x : List ℝ) (h : s.proteins = []) :
    s.call x = .error "GlobalFitIsing must have at least one curve to fit." := by
  simp [GlobalFitWrapper.call, h]

/-- Witness for C9: a fresh wrapper with the empty vector. -/
theorem claim_C9_witness :
    initWrapper.call [] = .error "GlobalFitIsing must have at least one curve to fit." :=
  claim_C9 initWrapper [] rfl

/-! ### C10: surplus parameters are ignored, shortage raises -/

theorem setDomainParams_short (d : IsingDomain) :
    ∀ (slots : List ℕ) (vals : List ℝ), vals.length < slots.length →
      setDomainParams d slots vals = .error "StopIteration" := by
  intro slots
  induction slots generalizing d with
  | nil => intro vals h; simp at h
  | cons s rest ih =>
    intro vals h
    match vals with
    | [] => rfl
    | v :: vrest =>
      simp only [List.length_cons, Nat.succ_lt_succ_iff] at h
      exact ih (setVar d s v) vrest h

theorem setDomainParams_ok (d : IsingDomain) :
    ∀ (slots : List ℕ) (vals : List ℝ), slots.length ≤ vals.length →
      setDomainParams d slots vals =
        .ok (writeSlots d slots vals, vals.drop slots.length) := by
  intro slots
  induction slots generalizing d with
  | nil => intro vals _; rfl
  | cons s rest ih =>
    intro vals h
    match vals with
    | [] => simp at h
    | v :: vrest =>
      simp only [List.length_cons, Nat.succ_le_succ_iff] at h
      simpa [setDomainParams, writeSlots] using ih (setVar d s v) vrest h

/-- `writeSlots` only reads the first `|slots|` values. -/
theorem writeSlots_take (d : IsingDomain) :
    ∀ (slots : List ℕ) (vals : List ℝ) (n : ℕ), slots.length ≤ n →
      writeSlots d slots (vals.take n) = writeSlots d slots vals := by
  intro slots
  induction slots generalizing d with
  | nil => intro vals n _; rfl
  | cons s rest ih =>
    intro vals n h
    match vals with
    | [] => simp
    | v :: vrest =>
      match n with
      | 0 => simp at h
      | m + 1 =>
        simp only [List.length_cons, Nat.succ_le_succ_iff] at h
        simpa [List.take_succ_cons, writeSlots] using ih (setVar d s v) vrest m h

theorem setAllParams_short :
    ∀ (ds : List IsingDomain) (vals : List ℝ), vals.length < totalParams ds →
      setAllParams ds vals = .error "StopIteration" := by
  intro ds
  induction ds with
  | nil => intro vals h; simp [totalParams] at h
  | cons d rest ih =>
    intro vals h
    simp only [totalParams, List.map_cons, List.sum_cons] at h
    by_cases hu : d.used_variables.length ≤ vals.length
    · have hlt : (vals.drop d.used_variables.length).length < totalParams rest := by
        simp only [totalParams, List.length_drop]
        omega
      simp only [setAllParams, setDomainParams_ok d _ _ hu, ih _ hlt]
    · push_neg at hu
      simp only [setAllParams, setDomainParams_short d _ _ hu]

theorem setAllParams_ok :
    ∀ (ds : List IsingDomain) (vals : List ℝ), totalParams ds ≤ vals.length →
      setAllParams ds vals = .ok (writeAll ds vals, vals.drop (totalParams ds)) := by
  intro ds
  induction ds with
  | nil => intro vals _; simp [setAllParams, writeAll, totalParams]
  | cons d rest ih =>
    intro vals h
    simp only [totalParams, List.map_cons, List.sum_cons] at h
    have hu : d.used_variables.length ≤ vals.length := by omega
    have hrest : totalParams rest ≤ (vals.drop d.used_variables.length).length := by
      simp only [totalParams, List.length_drop]
      omega
    simp only [setAllParams, setDomainParams_ok d _ _ hu, ih _ hrest, writeAll,
      totalParams, List.map_cons, List.sum_cons, List.drop_drop]

/-- `writeAll` only reads the first `totalParams` values. -/
theorem writeAll_take :
    ∀ (ds : List IsingDomain) (vals : List ℝ) (n : ℕ), totalParams ds ≤ n →
      writeAll ds (vals.take n) = writeAll ds vals := by
  intro ds
  induction ds with
  | nil => intro vals n _; rfl
  | cons d rest ih =>
    intro vals n h
    simp only [totalParams, List.map_cons, List.sum_cons] at h
    have hu : d.used_variables.length ≤ n := by omega
    have hrest : totalParams rest ≤ n - d.used_variables.length := by
      simp only [totalParams]
      omega
    simp only [writeAll]
    rw [writeSlots_take d _ _ _ hu, List.drop_take,
      ih (vals.drop d.used_variables.length) (n - d.used_variables.length) hrest]

/-- C10: on a session with at least one appended curve, a parameter vector
at least as long as the expected flat length `Σ|used_variables|` never
fails: the objective consumes exactly the expected prefix, ignores the
surplus, and returns the same value as for the exact-length prefix; a
shorter vector fails with the iterator-exhaustion error `StopIteration`
raised during assignment. -/
theorem claim_C10 (s : GlobalFitWrapper) (xs : List ℝ) (h : s.proteins ≠ []) :
    (totalParams s.domains ≤ xs.length →
      s.call xs = s.call (xs.take (totalParams s.domains)) ∧
      ∃ r, s.call xs = .ok r) ∧
    (xs.length < totalParams s.domains → s.call xs = .error "StopIteration") := by
  have hguard : ¬ s.proteins.length < 1 := by
    have : 0 < s.proteins.length := List.length_pos.mpr h
    omega
  constructor
  · intro hle
    have htake : totalParams s.domains ≤ (xs.take (totalParams s.domains)).length := by
      simp [List.length_take]
      omega
    have h1 := setAllParams_ok s.domains xs hle
    have h2 := setAllParams_ok s.domains _ htake
    rw [writeAll_take s.domains xs _ (le_refl _)] at h2
    constructor
    · simp only [GlobalFitWrapper.call, hguard, if_false, h1, h2]
    · refine ⟨(s.proteins.map (proteinResidual (writeAll s.domains xs))).sum, ?_⟩
      simp only [GlobalFitWrapper.call, hguard, if_false, h1]
  · intro hlt
    simp only [GlobalFitWrapper.call, hguard, if_false, setAllParams_short s.domains xs hlt]

/-- A one-point curve used to instantiate session claims. -/
noncomputable def demoCurve : Curve := ⟨[0], [0]⟩

/-- A session with a single curve over a single-`Repeat` topology. -/
noncomputable def demoSession : GlobalFitWrapper :=
  runAppends [(demoCurve, [DomainTag.Repeat])]

theorem demoSession_proteins_ne : demoSession.proteins ≠ [] := by
  simp [demoSession, runAppends, initWrapper, GlobalFitWrapper.append, appendLoop]

theorem demoSession_totalParams : totalParams demoSession.domains = 3 := rfl

/-- Witness for C10: on the demo session (expected length 3), a vector of
length 4 evaluates like its length-3 prefix and succeeds, a vector of
length 1 raises `StopIteration`. -/
theorem claim_C10_witness :
    (demoSession.call [1, 2, -1, 5] =
        demoSession.call (([1, 2, -1, 5] : List ℝ).take (totalParams demoSession.domains)) ∧
      ∃ r, demoSession.call [1, 2, -1, 5] = .ok r) ∧
    demoSession.call [1] = .error "StopIteration" :=
  ⟨(claim_C10 demoSession [1, 2, -1, 5] demoSession_proteins_ne).1
      (by rw [demoSession_totalParams]; norm_num),
    (claim_C10 demoSession [1] demoSession_proteins_ne).2
      (by rw [demoSession_totalParams]; norm_num)⟩

/-! ### C3: bounds / domain_params / flat-vector correspondence -/

theorem slotIdx_length : ∀ ds : List IsingDomain, (slotIdx ds).length = totalParams ds := by
  intro ds
  induction ds with
  | nil => rfl
  | cons d rest ih =>
    simp [slotIdx, totalParams, ih, List.length_append, List.length_map]

theorem bounds_eq_slots : ∀ ds : List IsingDomain,
    ds.flatMap IsingDomain.bounds =
      (slotIdx ds).map (fun iv => ((ds.getD iv.1 default).bounds_table).getD iv.2 (0, 0)) := by
  intro ds
  induction ds with
  | nil => rfl
  | cons d rest ih =>
    simp only [List.flatMap_cons, slotIdx, List.map_append, List.map_map]
    congr 1

theorem domain_params_eq_slots : ∀ ds : List IsingDomain,
    ds.flatMap (fun d => d.labels.map (fun l => d.name ++ " " ++ l)) =
      (slotIdx ds).map (fun iv =>
        (ds.getD iv.1 default).name ++ " " ++ PARAMETER_LABELS.getD iv.2 "") := by
  intro ds
  induction ds with
  | nil => rfl
  | cons d rest ih =>
    rw [List.flatMap_cons, ih]
    simp only [slotIdx, List.map_append, List.map_map]
    congr 1
    simp [IsingDomain.labels, List.map_map, Function.comp]

theorem getVar_setVar_self (d : IsingDomain) (s : ℕ) (v : ℝ) (hs : s < 4) :
    getVar (setVar d s v) s = v := by
  interval_cases s <;> rfl

theorem getVar_setVar_ne (d : IsingDomain) (s s' : ℕ) (v : ℝ) (hs : s < 4) (hs' : s' < 4)
    (h : s ≠ s') : getVar (setVar d s' v) s = getVar d s := by
  interval_cases s <;> interval_cases s' <;> simp_all [getVar, setVar]

theorem getVar_writeSlots_notin :
    ∀ (slots : List ℕ) (d : IsingDomain) (vals : List ℝ) (s : ℕ),
      s ∉ slots → s < 4 → (∀ v ∈ slots, v < 4) →
      getVar (writeSlots d slots vals) s = getVar d s := by
  intro slots
  induction slots with
  | nil => intro d vals s _ _ _; rfl
  | cons s' rest ih =>
    intro d vals s hnot hs h4
    match vals with
    | [] => rfl
    | v :: vr =>
      have hs' : s' < 4 := h4 s' (List.mem_cons_self s' rest)
      have hne : s ≠ s' := fun he => hnot (he ▸ List.mem_cons_self s' rest)
      have hnr : s ∉ rest := fun hm => hnot (List.mem_cons_of_mem s' hm)
      calc getVar (writeSlots (setVar d s' v) rest vr) s
          = getVar (setVar d s' v) s :=
            ih (setVar d s' v) vr s hnr hs (fun u hu => h4 u (List.mem_cons_of_mem s' hu))
        _ = getVar d s := getVar_setVar_ne d s s' v hs hs' hne

theorem map_getVar_writeSlots :
    ∀ (slots : List ℕ) (d : IsingDomain) (vals : List ℝ),
      slots.Nodup → (∀ v ∈ slots, v < 4) → slots.length ≤ vals.length →
      slots.map (fun v => getVar (writeSlots d slots vals) v) = vals.take slots.length := by
  intro slots
  induction slots with
  | nil => intro d vals _ _ _; rfl
  | cons s rest ih =>
    intro d vals hnd h4 hlen
    match vals with
    | [] => simp at hlen
    | v :: vr =>
      simp only [List.length_cons, Nat.succ_le_succ_iff] at hlen
      have hs : s < 4 := h4 s (List.mem_cons_self s rest)
      have hnr : s ∉ rest := (List.nodup_cons.mp hnd).1
      have hndr : rest.Nodup := (List.nodup_cons.mp hnd).2
      have h4r : ∀ u ∈ rest, u < 4 := fun u hu => h4 u (List.mem_cons_of_mem s hu)
      simp only [writeSlots, List.map_cons, List.take_succ_cons]
      congr 1
      · rw [getVar_writeSlots_notin rest (setVar d s v) vr s hnr hs h4r]
        exact getVar_setVar_self d s v hs
      · exact ih (setVar d s v) vr hndr h4r hlen

theorem readFlat_writeAll :
    ∀ (ds : List IsingDomain) (vals : List ℝ),
      (∀ d ∈ ds, d.used_variables.Nodup ∧ ∀ v ∈ d.used_variables, v < 4) →
      totalParams ds ≤ vals.length →
      readFlat (writeAll ds vals) (slotIdx ds) = vals.take (totalParams ds) := by
  intro ds
  induction ds with
  | nil => intro vals _ _; rfl
  | cons d rest ih =>
    intro vals hok hlen
    have hd := hok d (List.mem_cons_self d rest)
    have hrestok : ∀ e ∈ rest, e.used_variables.Nodup ∧ ∀ v ∈ e.used_variables, v < 4 :=
      fun e he => hok e (List.mem_cons_of_mem d he)
    simp only [totalParams, List.map_cons, List.sum_cons] at hlen
    have hu : d.used_variables.length ≤ vals.length := by omega
    have hrlen : totalParams rest ≤ (vals.drop d.used_variables.length).length := by
      simp only [totalParams, List.length_drop]
      omega
    have hW : readFlat (writeAll (d :: rest) vals) (slotIdx (d :: rest)) =
        (d.used_variables.map (fun v => getVar (writeSlots d d.used_variables vals) v)) ++
          readFlat (writeAll rest (vals.drop d.used_variables.length)) (slotIdx rest) := by
      simp only [readFlat, slotIdx, writeAll, List.map_append, List.map_map]
      congr 1
    rw [hW, map_getVar_writeSlots d.used_variables d vals hd.1 hd.2 hu, ih _ hrestok hrlen]
    have htot : totalParams (d :: rest) = d.used_variables.length + totalParams rest := by
      simp [totalParams]
    rw [htot, List.take_add]

/-- Every domain instantiated by a session has well-formed used variables:
`(0, 1, 2)` for chain variants, `(0, 2)` for caps — duplicate-free, all
within the four canonical slots. -/
theorem mkDomain_used_ok (t : DomainTag) :
    (mkDomain t).used_variables.Nodup ∧ ∀ v ∈ (mkDomain t).used_variables, v < 4 := by
  cases t <;> exact ⟨by decide, by decide⟩

theorem runAppends_used_ok (calls : List (Curve × List DomainTag)) :
    ∀ d ∈ (runAppends calls).domains,
      d.used_variables.Nodup ∧ ∀ v ∈ d.used_variables, v < 4 := by
  intro d hd
  rw [runAppends_aligned] at hd
  rcases List.mem_map.mp hd with ⟨t, _, rfl⟩
  exact mkDomain_used_ok t

/-- C3: in every session built by `append` calls, the `bounds` tuple and the
`domain_params` list both have length `Σ|used_variables|` over the distinct
domains in creation order (the expected flat-vector length), and position
`p` of `bounds`, of `domain_params`, and of the flat parameter vector all
refer to the same `(domain, free-label)` slot — the slot list `slotIdx`:
`bounds` and `domain_params` are its pointwise images, and assigning a flat
vector `xs` writes `xs[p]` into slot `p`, as reading the slots back in order
returns exactly the consumed prefix of `xs`. -/
theorem claim_C3 (calls : List (Curve × List DomainTag)) :
    (runAppends calls).bounds.length = totalParams (runAppends calls).domains ∧
    ((runAppends calls).domain_params).length = totalParams (runAppends calls).domains ∧
    (runAppends calls).bounds = (slotIdx (runAppends calls).domains).map (fun iv =>
      (((runAppends calls).domains.getD iv.1 default).bounds_table).getD iv.2 (0, 0)) ∧
    (runAppends calls).domain_params = (slotIdx (runAppends calls).domains).map (fun iv =>
      ((runAppends calls).domains.getD iv.1 default).name ++ " " ++
        PARAMETER_LABELS.getD iv.2 "") ∧
    ∀ xs : List ℝ, totalParams (runAppends calls).domains ≤ xs.length →
      setAllParams (runAppends calls).domains xs =
        .ok (writeAll (runAppends calls).domains xs,
          xs.drop (totalParams (runAppends calls).domains)) ∧
      readFlat (writeAll (runAppends calls).domains xs)
          (slotIdx (runAppends calls).domains) =
        xs.take (totalParams (runAppends calls).domains) := by
  refine ⟨?_, ?_, bounds_eq_slots _, domain_params_eq_slots _, ?_⟩
  · rw [GlobalFitWrapper.bounds, bounds_eq_slots, List.length_map, slotIdx_length]
  · rw [GlobalFitWrapper.domain_params, domain_params_eq_slots, List.length_map, slotIdx_length]
  · intro xs hlen
    exact ⟨setAllParams_ok _ xs hlen,
      readFlat_writeAll _ xs (runAppends_used_ok calls) hlen⟩

/-- Witness for C3 on a single-curve `Cap` session (two free parameters)
with the exact-length vector `[1, 2]`. -/
theorem claim_C3_witness :
    (runAppends [(demoCurve, [DomainTag.Cap])]).bounds.length =
      totalParams (runAppends [(demoCurve, [DomainTag.Cap])]).domains ∧
    setAllParams (runAppends [(demoCurve, [DomainTag.Cap])]).domains [1, 2] =
      .ok (writeAll (runAppends [(demoCurve, [DomainTag.Cap])]).domains [1, 2],
        ([1, 2] : List ℝ).drop
          (totalParams (runAppends [(demoCurve, [DomainTag.Cap])]).domains)) ∧
    readFlat (writeAll (runAppends [(demoCurve, [DomainTag.Cap])]).domains [1, 2])
        (slotIdx (runAppends [(demoCurve, [DomainTag.Cap])]).domains) =
      ([1, 2] : List ℝ).take
        (totalParams (runAppends [(demoCurve, [DomainTag.Cap])]).domains) := by
  have htot : totalParams (runAppends [(demoCurve, [DomainTag.Cap])]).domains = 2 := rfl
  have h := claim_C3 [(demoCurve, [DomainTag.Cap])]
  have hx := h.2.2.2.2 [1, 2] (by rw [htot]; simp)
  exact ⟨h.1, hx.1, hx.2⟩

/-! ### C6: constructor validation of `IsingPartitionFunction` -/

/-- A Python object handed over inside a topology list: an `IsingDomain`
instance or anything else. -/
inductive PyObj
  | domain (d : IsingDomain)
  | nonDomain

def PyObj.isDomain : PyObj → Bool
  | .domain _ => true
  | .nonDomain => false

/-- The `topology` argument of `IsingPartitionFunction.__init__`: either not
a Python list at all (e.g. the default `None`) or a list of objects. -/
inductive PyTopologyArg
  | notAList
  | pyList (xs : List PyObj)

/-- The element-check loop of `__init__`: raise `TypeError` at the first
element that is not an `IsingDomain`. -/
def checkDomains : List PyObj → Except String (List IsingDomain)
  | [] => .ok []
  | .domain d :: rest => (checkDomains rest).map (fun ds => d :: ds)
  | .nonDomain :: _ =>
    .error "IsingPartitionFunction: Model topologies must be specified using IsingDomain classes"

/-- `IsingPartitionFunction.__init__(topology)`: `TypeError` when the
argument is not a list, `TypeError` at a non-domain element, otherwise the
topology is accepted as given (`init_topology`). -/
def isingPartitionFunction_init : PyTopologyArg → Except String (List IsingDomain)
  | .notAList => .error "IsingPartitionFunction: model topology must be specified"
  | .pyList xs => checkDomains xs

/-- C6, counterexample: the empty Python list *is* a list, so construction
with an empty topology succeeds (with `n = 0`) instead of failing. -/
theorem claim_C6_counterexample :
    isingPartitionFunction_init (.pyList []) = .ok [] := rfl

/-- C6, amended: constructing with a non-list topology (such as the default
`None`) fails with `InvalidArgument`, and so does a topology list containing
any element that is not an `IsingDomain`; an *empty* list, however, is
accepted and yields the partition function over zero domains. -/
theorem claim_C6_amended :
    (isingPartitionFunction_init .notAList =
      .error "IsingPartitionFunction: model topology must be specified") ∧
    (∀ xs : List PyObj, (∃ o ∈ xs, o.isDomain = false) →
      isingPartitionFunction_init (.pyList xs) =
        .error "IsingPartitionFunction: Model topologies must be specified using IsingDomain classes") ∧
    (∀ xs : List PyObj, (∀ o ∈ xs, o.isDomain = true) →
      ∃ ds, isingPartitionFunction_init (.pyList xs) = .ok ds) := by
  refine ⟨rfl, ?_, ?_⟩
  · intro xs
    induction xs with
    | nil => intro h; rcases h with ⟨o, ho, _⟩; cases ho
    | cons o rest ih =>
      intro h
      match o with
      | .nonDomain => rfl
      | .domain d =>
        have hrest : ∃ o ∈ rest, o.isDomain = false := by
          rcases h with ⟨o', ho', hbad⟩
          rcases List.mem_cons.mp ho' with rfl | hm
          · cases hbad
          · exact ⟨o', hm, hbad⟩
        simp only [isingPartitionFunction_init, checkDomains]
        rw [show checkDomains rest = .error
          "IsingPartitionFunction: Model topologies must be specified using IsingDomain classes"
          from ih hrest]
        rfl
  · intro xs
    induction xs with
    | nil => intro _; exact ⟨[], rfl⟩
    | cons o rest ih =>
      intro h
      match o with
      | .nonDomain => exact absurd (h _ (List.mem_cons_self _ rest)) (by simp [PyObj.isDomain])
      | .domain d =>
        rcases ih (fun o' ho' => h o' (List.mem_cons_of_mem _ ho')) with ⟨ds, hds⟩
        refine ⟨d :: ds, ?_⟩
        simp only [isingPartitionFunction_init, checkDomains] at hds ⊢
        rw [hds]
        rfl

/-- Witness for C6's amended claim: `None`, a one-element list with a
non-domain, and a one-element list with a `Repeat` instance. -/
theorem claim_C6_amended_witness :
    isingPartitionFunction_init .notAList =
      .error "IsingPartitionFunction: model topology must be specified" ∧
    isingPartitionFunction_init (.pyList [.nonDomain]) =
      .error "IsingPartitionFunction: Model topologies must be specified using IsingDomain classes" ∧
    ∃ ds, isingPartitionFunction_init (.pyList [.domain (mkDomain DomainTag.Repeat)]) =
      .ok ds :=
  ⟨claim_C6_amended.1,
    claim_C6_amended.2.1 [.nonDomain] ⟨.nonDomain, List.mem_singleton_self _, rfl⟩,
    claim_C6_amended.2.2 [.domain (mkDomain DomainTag.Repeat)]
      (fun o ho => by rcases List.mem_singleton.mp ho with rfl; rfl)⟩

/-! ### C7: error estimation from the Jacobian -/

/-- `np.var(residuals)`: the population variance. -/
noncomputable def npVar (l : List ℝ) : ℝ :=
  ((l.map (fun y => (y - l.sum / l.length) ^ 2)).sum) / l.length

open Classical in
/-- `calculate_error_from_jacobian(jac, residuals)` for a Jacobian handed
over as an `r × c` array.  `num_params = len(np.ravel(jac)) = r * c`.  When
`det(Jᵀ·J) = 0`, a list of `num_params` infinities is returned.  Otherwise
the list comprehension reads `covar[p, p]` for every `p < num_params`,
which raises `IndexError` as soon as `p` reaches the covariance dimension
`c` — possible precisely when the array has more than one row; `np.linalg.pinv`
coincides with the matrix inverse in this branch because the determinant is
nonzero. -/
noncomputable def calculate_error_from_jacobian {r c : ℕ}
    (jac : Matrix (Fin r) (Fin c) ℝ) (residuals : List ℝ) : Except String (List EReal) :=
  let num_params := r * c
  let H := jac.transpose * jac
  if H.det = 0 then .ok (List.replicate num_params (⊤ : EReal))
  else if num_params ≤ c then
    .ok ((List.range num_params).map (fun p =>
      if h : p < c then
        (((Real.sqrt ((H⁻¹ ⟨p, h⟩ ⟨p, h⟩) * npVar residuals) /
          Real.sqrt residuals.length) : ℝ) : EReal)
      else 0))
  else .error "IndexError"

/-- C7, counterexample: for the all-zero (hence rank-deficient) `2 × 2`
Jacobian, the code returns `4 = rows·columns` infinities, not one infinity
per free parameter (`2` = number of columns). -/
theorem claim_C7_counterexample :
    calculate_error_from_jacobian (0 : Matrix (Fin 2) (Fin 2) ℝ) [1] =
      .ok (List.replicate 4 (⊤ : EReal)) ∧
    calculate_error_from_jacobian (0 : Matrix (Fin 2) (Fin 2) ℝ) [1] ≠
      .ok (List.replicate 2 (⊤ : EReal)) := by
  have hdet : (((0 : Matrix (Fin 2) (Fin 2) ℝ)).transpose * 0).det = 0 := by
    simp
  have heq : calculate_error_from_jacobian (0 : Matrix (Fin 2) (Fin 2) ℝ) [1] =
      .ok (List.replicate 4 (⊤ : EReal)) := by
    simp [calculate_error_from_jacobian, hdet]
  refine ⟨heq, ?_⟩
  rw [heq]
  intro h
  have := Except.ok.inj h
  have hlen := congrArg List.length this
  simp [List.length_replicate] at hlen

/-- C7, amended: for every `r × c` Jacobian `J` and residual vector, if
`det(Jᵀ·J) = 0` the function returns, without raising, a list of
`+infinity` entries whose length is the number of *entries* `r·c` of `J`
(equal to the number of free parameters exactly when `J` is passed as a
single row, as the repository's call sites do); otherwise, when `J` has a
single row, it returns per parameter `p < c` the value
`sqrt(covariance[p,p] · variance(residuals)) / sqrt(N)` with
`covariance = pinv(Jᵀ·J) = (Jᵀ·J)⁻¹` and `N` the residual count, while for
a multi-row `J` the comprehension raises `IndexError`. -/
theorem claim_C7_amended {r c : ℕ} (jac : Matrix (Fin r) (Fin c) ℝ) (residuals : List ℝ) :
    ((jac.transpose * jac).det = 0 →
      calculate_error_from_jacobian jac residuals =
        .ok (List.replicate (r * c) (⊤ : EReal))) ∧
    (r = 1 → (jac.transpose * jac).det ≠ 0 →
      calculate_error_from_jacobian jac residuals =
        .ok ((List.finRange c).map (fun p =>
          (((Real.sqrt (((jac.transpose * jac)⁻¹ p p) * npVar residuals) /
            Real.sqrt residuals.length) : ℝ) : EReal)))) ∧
    (1 < r → 0 < c → (jac.transpose * jac).det ≠ 0 →
      calculate_error_from_jacobian jac residuals = .error "IndexError") := by
  refine ⟨?_, ?_, ?_⟩
  · intro hdet
    simp [calculate_error_from_jacobian, hdet]
  · intro hr hdet
    subst hr
    simp only [calculate_error_from_jacobian, hdet, if_false, one_mul, le_refl, if_true]
    congr 1
    rw [← List.map_coe_finRange, List.map_map]
    apply List.map_congr_left
    intro p _
    simp [Function.comp, p.isLt]
  · intro hr hc hdet
    have hgt : ¬ (r * c ≤ c) := by
      have h2 : 2 ≤ r := hr
      have : 2 * c ≤ r * c := Nat.mul_le_mul_right c h2
      omega
    simp [calculate_error_from_jacobian, hdet, hgt]

/-- The `1 × 1` Jacobian `[[2]]`. -/
noncomputable def demoJac1 : Matrix (Fin 1) (Fin 1) ℝ := !![2]

/-- The `2 × 1` Jacobian `[[1], [1]]`. -/
noncomputable def demoJac2 : Matrix (Fin 2) (Fin 1) ℝ := !![1; 1]

/-- Witness for C7's amended claim: the all-zero `2 × 2` Jacobian (singular
branch), the `1 × 1` Jacobian `[[2]]` (non-singular single-row branch), and
the `2 × 1` Jacobian `[[1], [1]]` (non-singular multi-row branch). -/
theorem claim_C7_amended_witness :
    calculate_error_from_jacobian (0 : Matrix (Fin 2) (Fin 2) ℝ) [1, 2] =
      .ok (List.replicate (2 * 2) (⊤ : EReal)) ∧
    calculate_error_from_jacobian demoJac1 [1, 2] =
      .ok ((List.finRange 1).map (fun p =>
        (((Real.sqrt (((demoJac1.transpose * demoJac1)⁻¹ p p) *
            npVar [1, 2]) / Real.sqrt ([1, 2] : List ℝ).length) : ℝ) : EReal))) ∧
    calculate_error_from_jacobian demoJac2 [1] = .error "IndexError" := by
  have hd2 : (demoJac1.transpose * demoJac1).det ≠ 0 := by
    simp [demoJac1, Matrix.det_fin_one, Matrix.mul_apply, Fin.sum_univ_one]
  have hd3 : (demoJac2.transpose * demoJac2).det ≠ 0 := by
    norm_num [demoJac2, Matrix.det_fin_one, Matrix.mul_apply, Fin.sum_univ_two,
      Matrix.transpose_apply, Matrix.vecHead, Matrix.vecTail, Matrix.cons_val_zero,
      Matrix.cons_val_one, Matrix.head_cons]
  exact ⟨(claim_C7_amended (0 : Matrix (Fin 2) (Fin 2) ℝ) [1, 2]).1 (by simp),
    (claim_C7_amended demoJac1 [1, 2]).2.1 rfl hd2,
    (claim_C7_amended demoJac2 [1]).2.2 (by norm_num) (by norm_num) hd3⟩
